import Mathlib

/-!
Verification of the coastermelt backdoor shell (`src/backdoor/shell_magics.py`)
against its natural-language specification.

The source under scrutiny is a thin IPython "magics" dispatch layer; the
device-level primitives it calls (`poke_words`, `overlay_set`, `overlay_get`,
`d.fill`, `search_block`, `evalasm`, `overlay_hook`, `scsi_in`) live in
sibling modules that are not part of the given source tree.  Wherever one of
those primitives decides a claim, its definition below is modelled from the
specification text and marked `Modelled from the spec:` in its doc comment.
Everything else is translated directly from `shell_magics.py`.
-/

namespace Coastermelt

/-! ## Word-granular memory model (for `orr` / `bic`)

Memory is a map from a 32-bit address to the 32-bit word stored there.
`poke_orr` and `poke_bic` are the read-modify-write primitives described in
the spec's Memory Access component (§4.2). -/

/-- A word-granular view of target memory: each address holds one 32-bit word. -/
def Mem : Type := Nat → Nat

/-- Update memory at one address. -/
def Mem.poke (m : Mem) (a v : Nat) : Mem :=
  fun x => if x = a then v else m x

/-- Modelled from the spec: `read_modify_write_or(address, word)` — "fetch
current word, apply OR, write back" (`poke_orr` in the missing `mem.py`). -/
def poke_orr (m : Mem) (a w : Nat) : Mem :=
  m.poke a (m a ||| w)

/-- Modelled from the spec: `read_modify_write_and_not(address, word)` — "fetch
current word, apply AND-with-complement, write back" (`poke_bic` in the
missing `mem.py`).  Python's `x & ~w` on nonnegative ints is `Nat.ldiff`. -/
def poke_bic (m : Mem) (a w : Nat) : Mem :=
  m.poke a (Nat.ldiff (m a) w)

/-! ## The `orr` / `bic` magics (shell_magics.py lines 102-122)

Both magics collect their word list as the line arguments with the cell words
appended (`args.word.extend(map(hexint, cell.split()))`), then run
`for i, w in enumerate(args.word): poke_xxx(d, args.address + i*4, w)`. -/

/-- One device-level operation observable on the wire: a word write
(`PokeOrr`/`PokeBic` denote the RMW variants). -/
inductive MemOp : Type
  | pokeOrr (address word : Nat)
  | pokeBic (address word : Nat)
deriving DecidableEq, Repr

/-- The word list assembled by the line/cell magics: line arguments first,
then the cell words appended. -/
def magicWords (lineWords cellWords : List Nat) : List Nat :=
  lineWords ++ cellWords

/-- Loop `for i, w in enumerate(args.word): poke(d, args.address + i*4, w)`:
one operation per word, at `address + i*4`, in ascending index order. -/
def rmwTrace (mk : Nat → Nat → MemOp) (address : Nat) (ws : List Nat) : List MemOp :=
  (List.range ws.length).map fun i => mk (address + i * 4) (ws.getD i 0)

/-- Magic `%orr address words…` : sequence of RMW-OR pokes at `address + 4*i`,
ascending `i`, one per word (`shell_magics.py` lines 106-111). -/
def orrTrace (address : Nat) (ws : List Nat) : List MemOp :=
  rmwTrace MemOp.pokeOrr address ws

/-- Magic `%bic address words…` : sequence of RMW-AND-NOT pokes at `address + 4*i`,
ascending `i` (`shell_magics.py` lines 117-122). -/
def bicTrace (address : Nat) (ws : List Nat) : List MemOp :=
  rmwTrace MemOp.pokeBic address ws

/-- Apply one traced operation to memory. -/
def MemOp.apply (m : Mem) : MemOp → Mem
  | MemOp.pokeOrr a w => poke_orr m a w
  | MemOp.pokeBic a w => poke_bic m a w

/-- Run a trace of operations left to right. -/
def runTrace (m : Mem) : List MemOp → Mem
  | [] => m
  | op :: rest => runTrace (op.apply m) rest

/-- Memory after the `%orr` magic. -/
def orrMagic (m : Mem) (address : Nat) (ws : List Nat) : Mem :=
  runTrace m (orrTrace address ws)

/-- Memory after the `%bic` magic. -/
def bicMagic (m : Mem) (address : Nat) (ws : List Nat) : Mem :=
  runTrace m (bicTrace address ws)

/-! ## Device with a relocatable RAM overlay (for `ovl`, `wrf`, `asmf`)

Modelled from the spec: the overlay primitives (`overlay_set`, `overlay_get`,
`poke_words` in the missing `mem.py`) and the aliasing semantics of §4.3 —
a single RAM window of words that, while mapped at `(base, word_count)`,
aliases the virtual word addresses `base, base+4, …, base+4*(count-1)`;
everything else reads/writes the underlying (flash) memory.  `set` replaces
the whole mapping in one device-level operation; backing RAM contents survive
a re-map (that is the point of the sneaky-flash-write trick). -/

structure Device : Type where
  /-- Underlying memory: word stored at each virtual address not covered by
  the overlay window. -/
  flash : Nat → Nat
  /-- Backing RAM of the overlay window, indexed by word number. -/
  ram : Nat → Nat
  /-- Current overlay mapping: `none` when not installed. -/
  ovl : Option (Nat × Nat)

/-- Does the overlay mapping `(base, words)` cover virtual address `a`
(as the word index `(a - base)/4`)? -/
def covers (base words a : Nat) : Prop :=
  base ≤ a ∧ a < base + 4 * words

instance (base words a : Nat) : Decidable (covers base words a) := by
  unfold covers; infer_instance

/-- Modelled from the spec: word read through the overlay aliasing. -/
def Device.peek (d : Device) (a : Nat) : Nat :=
  match d.ovl with
  | none => d.flash a
  | some (base, words) =>
      if covers base words a then d.ram ((a - base) / 4) else d.flash a

/-- Modelled from the spec: word write through the overlay aliasing
(the device's native word-poke primitive). -/
def Device.poke (d : Device) (a v : Nat) : Device :=
  match d.ovl with
  | none => { d with flash := fun x => if x = a then v else d.flash x }
  | some (base, words) =>
      if covers base words a then
        { d with ram := fun i => if i = (a - base) / 4 then v else d.ram i }
      else
        { d with flash := fun x => if x = a then v else d.flash x }

/-- Modelled from the spec: `overlay_set(d, base, wordcount)` — installs or
replaces the mapping in one atomic device-level operation. -/
def overlay_set (d : Device) (base words : Nat) : Device :=
  { d with ovl := some (base, words) }

/-- Modelled from the spec: `overlay_get(d)` — returns the current
`(base, wordcount)` mapping, `(0, 0)` when nothing is installed. -/
def overlay_get (d : Device) : Nat × Nat :=
  match d.ovl with
  | none => (0, 0)
  | some (base, words) => (base, words)

/-- Modelled from the spec: `poke_words(d, address, words)` — writes words in
ascending order starting at `address`, one native word poke each. -/
def poke_words (d : Device) (address : Nat) : List Nat → Device
  | [] => d
  | w :: ws => poke_words (d.poke address w) (address + 4) ws

/-- Word-granular read-back: `read(a, n*4)` viewed as `n` word reads. -/
def read_words (d : Device) (address n : Nat) : List Nat :=
  (List.range n).map fun i => d.peek (address + 4 * i)

/-- The scratch virtual address used by `wrf` and `asmf` (`va=0x500000`). -/
def scratch_va : Nat := 0x500000

/-- Magic `%wrf address word…` (`shell_magics.py` lines 86-90): map the overlay at
the scratch address, write the words there, then re-map the overlay onto the
target address.  The word list is the line words with the cell words
appended. -/
def wrf (d : Device) (address : Nat) (ws : List Nat) : Device :=
  let d1 := overlay_set d scratch_va ws.length
  let d2 := poke_words d1 scratch_va ws
  overlay_set d2 address ws.length

/-- Device-level operations emitted by the overlay magics, in order. -/
inductive DevOp : Type
  | setOverlay (base words : Nat)
  | pokeWord (address word : Nat)
deriving DecidableEq, Repr

/-- The poke operations issued by `poke_words(d, a, ws)`: one word write per
element, at `a + 4*i`, ascending. -/
def pokeTrace (a : Nat) (ws : List Nat) : List DevOp :=
  (List.range ws.length).map fun i => DevOp.pokeWord (a + 4 * i) (ws.getD i 0)

/-- The trace of device-level operations issued by `wrf` (and by the
write-then-overlay tail of `asmf`): one overlay set, the word pokes in
ascending address order, then exactly one re-mapping set. -/
def wrfTrace (address : Nat) (ws : List Nat) : List DevOp :=
  DevOp.setOverlay scratch_va ws.length ::
    pokeTrace scratch_va ws ++
    [DevOp.setOverlay address ws.length]

/-- Apply one device-level operation. -/
def DevOp.apply (d : Device) : DevOp → Device
  | DevOp.setOverlay base words => overlay_set d base words
  | DevOp.pokeWord address word => d.poke address word

/-- Run a device-op trace left to right. -/
def runDevTrace (d : Device) : List DevOp → Device
  | [] => d
  | op :: rest => runDevTrace (op.apply d) rest

/-- Is a device-level operation an overlay (re-)mapping? -/
def DevOp.isSet : DevOp → Bool
  | DevOp.setOverlay _ _ => true
  | DevOp.pokeWord _ _ => false

/-! ## Code Bridge errors and the `asmf` / `hook` magics (C1, C8)

`CodeError` is the structured compilation/evaluation failure carrying a
human-readable message (§4.7).  The assembler/compiler itself is the external
Code Bridge collaborator, so it appears here as an abstract function
returning either assembled words or a `CodeError`. -/

structure CodeError : Type where
  msg : String
deriving DecidableEq, Repr

/-- Magic `%%asmf address code` (`shell_magics.py` lines 245-253): assemble first
(`assemble_string`), and only on success run the write-then-overlay tail
(`overlay_set va; poke_words; overlay_set address`).  Returns the outcome and
the trace of device-level operations actually issued. -/
def asmfRun (assemble : String → Except CodeError (List Nat))
    (d : Device) (address : Nat) (code : String) :
    Except CodeError Device × List DevOp :=
  match assemble code with
  | Except.error e => (Except.error e, [])
  | Except.ok ws => (Except.ok (wrf d address ws), wrfTrace address ws)

/-- Modelled from the spec: `overlay_hook` (§4.4, missing `code.py`) —
(1) compile the handler body via the Code Bridge; on failure abort before any
memory is touched; on success (2) write the compiled handler into scratch RAM
and (3) write the 8-byte redirect at the hook address using the
map/write/remap protocol.  The redirect encoding comes from the external
assembler, abstracted as `redirect`. -/
def overlay_hookRun (compile : String → Except CodeError (List Nat))
    (redirect : Nat → List Nat)
    (d : Device) (hook_address handler_address : Nat) (source : String) :
    Except CodeError Device × List DevOp :=
  match compile source with
  | Except.error e => (Except.error e, [])
  | Except.ok handler_words =>
      let d1 := poke_words d handler_address handler_words
      (Except.ok (wrf d1 hook_address (redirect handler_address)),
        pokeTrace handler_address handler_words ++
          wrfTrace hook_address (redirect handler_address))

/-! ## Session register state and the `%ea` magic (C7)

`shell_magics.py` lines 280-283: `r0, r1 = evalasm(d, line, r0 or 0, …)`,
where `r0`/`r1` are module-level globals initialised to `None`.  On a
`CodeError` the assignment never happens, so the registers keep their prior
values. -/

structure Session : Type where
  r0 : Option Nat
  r1 : Option Nat
deriving DecidableEq, Repr

/-- The fresh session: `r0 = None`, `r1 = None` (`shell_magics.py` lines
29-30). -/
def Session.initial : Session := ⟨none, none⟩

/-- Python's `r0 or 0`: `None` and `0` give `0`, any other int gives itself.
On `Option Nat` this is exactly `getD 0`. -/
def eaInput (s : Session) : Nat := s.r0.getD 0

/-- Magic `%ea line`: evaluate the assembly one-liner with the persisted `r0` as
input; on success persist the returned pair into `r0`/`r1`; on a `CodeError`
leave the session unchanged. -/
def ea (evalasm : String → Nat → Except CodeError (Nat × Nat))
    (s : Session) (line : String) : Session :=
  match evalasm line (eaInput s) with
  | Except.error _ => s
  | Except.ok (a, b) => ⟨some a, some b⟩

/-! ## `%sc_read` CDB construction (C5)

`shell_magics.py` lines 429-430:
`cdb = struct.pack('>BBII', 0xA8, 0, args.lba, args.length)` and
`data = scsi_in(d, cdb, args.length * 2048)`. -/

/-- Big-endian 4-byte encoding of a (32-bit) value, as `struct.pack('>I')`. -/
def be32 (v : Nat) : List Nat :=
  [v / 2 ^ 24 % 256, v / 2 ^ 16 % 256, v / 2 ^ 8 % 256, v % 256]

/-- The CDB bytes built by `sc_read`: `struct.pack('>BBII', 0xA8, 0, lba,
length)`. -/
def sc_read_cdb (lba length : Nat) : List Nat :=
  [0xA8 % 256, 0 % 256] ++ be32 lba ++ be32 length

/-- The data-in byte count requested by `sc_read`: `args.length * 2048`. -/
def sc_read_datalen (length : Nat) : Nat := length * 2048

/-! ## Byte-granular memory and `fill` (C3)

Modelled from the spec: `d.fill(address, word, count)` (the device method
behind the `%fill` magic, `shell_magics.py` line 138, implemented outside the
given tree).  §4.2: if the pattern reduces to a single repeated byte the
implementation uses the bulk-fill device primitive, otherwise it issues one
word write per element; both paths must produce byte-identical results.
Memory here is byte-granular so that the byte-level bulk primitive and the
word-level pokes can be compared. -/

/-- Byte-granular memory: the byte stored at each address. -/
def BMem : Type := Nat → Nat

/-- Byte `k` (0 = least significant) of a word, as stored little-endian by
the ARM target. -/
def byteOf (w k : Nat) : Nat := w / 256 ^ k % 256

/-- A native word poke: stores the four bytes of `w` at `a, a+1, a+2, a+3`. -/
def writeWord (m : BMem) (a w : Nat) : BMem :=
  fun x => if a ≤ x ∧ x < a + 4 then byteOf w (x - a) else m x

/-- Word read: assemble the four bytes at `a, …, a+3` little-endian. -/
def readWord (m : BMem) (a : Nat) : Nat :=
  m a % 256 + 256 * (m (a + 1) % 256) + 65536 * (m (a + 2) % 256) +
    16777216 * (m (a + 3) % 256)

/-- Operation `read_words(address, count)` over byte memory. -/
def bread_words (m : BMem) (a n : Nat) : List Nat :=
  (List.range n).map fun i => readWord m (a + 4 * i)

/-- Does the word pattern reduce to a single repeated byte? -/
def isRepeatedByte (w : Nat) : Bool :=
  (w / 256 % 256 == w % 256) && (w / 65536 % 256 == w % 256) &&
    (w / 16777216 % 256 == w % 256)

/-- The per-word fallback path: one word write per element, ascending. -/
def fill_words (m : BMem) (a w : Nat) : Nat → BMem
  | 0 => m
  | n + 1 => fill_words (writeWord m a w) (a + 4) w n

/-- The bulk-fill device primitive: sets every byte of `[a, a+4*n)` to `b`. -/
def fill_bulk (m : BMem) (a b n : Nat) : BMem :=
  fun x => if a ≤ x ∧ x < a + 4 * n then b else m x

/-- Modelled from the spec: `fill(address, word, count)` — bulk-fill fast
path when the pattern is a single repeated byte, per-word fallback
otherwise. -/
def fill (m : BMem) (a w n : Nat) : BMem :=
  if isRepeatedByte w then fill_bulk m a (w % 256) n else fill_words m a w n

/-! ## Search engine (C9)

Modelled from the spec: `search_block(d, address, size, pattern)` (missing
`dump.py`) — §4.6: scans byte-by-byte, not word-aligned, across the fetched
block `[address, address+size)` and reports every offset where the pattern
matches exactly, including overlapping matches; matches never read outside
the fetched block.  `block` is the `size` bytes fetched from `address`. -/

def search_block (address : Nat) (block pattern : List Nat) : List Nat :=
  ((List.range block.length).filter
    fun i => decide ((block.drop i).take pattern.length = pattern)).map
    fun i => address + i

/-! ## Include/definition table and the `%%fc` magic (C4)

`shell_magics.py` lines 376-393.  Text is modelled as `List Char`;
`'\x7b'`/`'\x7d'` are the literal brace characters.  `pyWords` models
Python's `str.split()` (split on any whitespace run, dropping empty pieces);
`normalizeWs` models `' '.join(line.split())`. -/

def isPySpace (c : Char) : Bool :=
  (c == ' ') || (c == '\t') || (c == '\n') || (c == '\r') ||
    (c == '\x0b') || (c == '\x0c')

def pyWordsAux : List Char → List Char → List (List Char)
  | [], acc => if acc.isEmpty then [] else [acc.reverse]
  | c :: cs, acc =>
      if isPySpace c then
        if acc.isEmpty then pyWordsAux cs [] else acc.reverse :: pyWordsAux cs []
      else pyWordsAux cs (c :: acc)

/-- Python `line.split()`. -/
def pyWords (s : List Char) : List (List Char) := pyWordsAux s []

/-- Python `' '.join(ws)`. -/
def joinSpace : List (List Char) → List Char
  | [] => []
  | [w] => w
  | w :: ws => w ++ ' ' :: joinSpace ws

/-- Normalization `' '.join(line.split())`: collapse whitespace runs. -/
def normalizeWs (s : List Char) : List Char := joinSpace (pyWords s)

/-- Line-mode key: `' '.join(line.split()).split('\x7b')[0].split('=')[0]` —
whitespace-normalize, truncate before the first `'\x7b'`, then truncate
before the first `'='` (line 392). -/
def lineKey (line : List Char) : List Char :=
  ((normalizeWs line).takeWhile fun c => !(c == '\x7b')).takeWhile fun c => !(c == '=')

/-- Cell-mode key: the whitespace-normalized header line (line 377). -/
def cellKey (line : List Char) : List Char := normalizeWs line

/-- Cell-mode body: `"%s \x7b\n%s;\n\x7d;\n" % (line, cell)` (line 378). -/
def fcBody (line cell : List Char) : List Char :=
  line ++ [' ', '\x7b', '\n'] ++ cell ++ [';', '\n', '\x7d', ';', '\n']

/-- The `includes` dictionary. -/
def Includes : Type := List Char → Option (List Char)

/-- Python dictionary assignment `D[k] = v`. -/
def dictSet (D : Includes) (k v : List Char) : Includes :=
  fun x => if x = k then some v else D x

/-- Magic `%%fc` (`shell_magics.py` lines 376-393): with a cell, store the
multi-line body under the normalized header line; with a blank line, list
(no mutation); otherwise store `line + ';'` under the line-mode key. -/
def fc (D : Includes) (line cell : List Char) : Includes :=
  if cell ≠ [] then dictSet D (cellKey line) (fcBody line cell)
  else if pyWords line = [] then D
  else dictSet D (lineKey line) (line ++ [';'])

/-- A concrete blank device, used to instantiate universally quantified
results on concrete inputs. -/
def dev0 : Device := ⟨fun x => 0, fun x => 0, none⟩

/-- The empty `includes` dictionary. -/
def emptyIncludes : Includes := fun k => none

/-! # Helper lemmas -/

/-! ## Bitwise helper lemmas -/

lemma ldiff_lor_self (w m : Nat) : Nat.ldiff (w ||| m) m = Nat.ldiff w m := by
  apply Nat.eq_of_testBit_eq
  intro i
  simp only [Nat.testBit_ldiff, Nat.testBit_lor]
  cases m.testBit i <;> simp

lemma ldiff_eq_self_of_land_eq_zero {w m : Nat} (h : w &&& m = 0) :
    Nat.ldiff w m = w := by
  apply Nat.eq_of_testBit_eq
  intro i
  have hb := congrArg (fun n => Nat.testBit n i) h
  simp only [Nat.testBit_land, Nat.zero_testBit] at hb
  simp only [Nat.testBit_ldiff]
  cases hm : m.testBit i
  · simp
  · rw [hm] at hb
    simp only [Bool.and_true] at hb
    simp [hb]

lemma poke_bic_poke_orr (m : Mem) (a mask : Nat) :
    poke_bic (poke_orr m a mask) a mask =
      Mem.poke m a (Nat.ldiff (m a) mask) := by
  funext x
  by_cases hx : x = a <;>
    simp [poke_bic, poke_orr, Mem.poke, hx, ldiff_lor_self]

/-! ## RMW-trace lemmas (shared by C10's `orr` and `bic` parts) -/

lemma rmwTrace_cons (mk : Nat → Nat → MemOp) (a w : Nat) (ws : List Nat) :
    rmwTrace mk a (w :: ws) = mk a w :: rmwTrace mk (a + 4) ws := by
  unfold rmwTrace
  simp only [List.length_cons]
  rw [List.range_succ_eq_map, List.map_cons, List.map_map]
  simp only [List.getD_cons_zero, Nat.zero_mul, Nat.add_zero]
  congr 1
  apply List.map_congr_left
  intro i _
  simp only [Function.comp_apply, List.getD_cons_succ]
  congr 1
  omega

lemma runTrace_rmw_frame (f : Nat → Nat → Nat) (mk : Nat → Nat → MemOp)
    (hmk : ∀ (m : Mem) (a w : Nat), MemOp.apply m (mk a w) = m.poke a (f (m a) w)) :
    ∀ (ws : List Nat) (a : Nat) (m : Mem) (x : Nat),
      (∀ i, i < ws.length → x ≠ a + i * 4) →
      runTrace m (rmwTrace mk a ws) x = m x := by
  intro ws
  induction ws with
  | nil => intro a m x _; rfl
  | cons w ws ih =>
    intro a m x hx
    rw [rmwTrace_cons]
    show runTrace (MemOp.apply m (mk a w)) (rmwTrace mk (a + 4) ws) x = m x
    rw [ih (a + 4) _ x (by intro i hi; have := hx (i + 1) (by simpa using hi); omega)]
    rw [hmk]
    have hxa : x ≠ a := by have := hx 0 (by simp); omega
    simp [Mem.poke, hxa]

lemma runTrace_rmw_at (f : Nat → Nat → Nat) (mk : Nat → Nat → MemOp)
    (hmk : ∀ (m : Mem) (a w : Nat), MemOp.apply m (mk a w) = m.poke a (f (m a) w)) :
    ∀ (ws : List Nat) (a : Nat) (m : Mem) (i : Nat), i < ws.length →
      runTrace m (rmwTrace mk a ws) (a + i * 4) =
        f (m (a + i * 4)) (ws.getD i 0) := by
  intro ws
  induction ws with
  | nil => intro a m i hi; simp at hi
  | cons w ws ih =>
    intro a m i hi
    rw [rmwTrace_cons]
    show runTrace (MemOp.apply m (mk a w)) (rmwTrace mk (a + 4) ws) (a + i * 4) =
      f (m (a + i * 4)) ((w :: ws).getD i 0)
    cases i with
    | zero =>
      rw [runTrace_rmw_frame f mk hmk ws (a + 4) _ _ (by intro j hj; omega)]
      rw [hmk]
      simp [Mem.poke]
    | succ j =>
      have hj : j < ws.length := by simpa using hi
      have harith : a + (j + 1) * 4 = (a + 4) + j * 4 := by omega
      rw [harith, ih (a + 4) _ j hj, hmk]
      have hne : (a + 4) + j * 4 ≠ a := by omega
      simp [Mem.poke, hne]

lemma memOp_apply_orr (m : Mem) (a w : Nat) :
    MemOp.apply m (MemOp.pokeOrr a w) = m.poke a (m a ||| w) := rfl

lemma memOp_apply_bic (m : Mem) (a w : Nat) :
    MemOp.apply m (MemOp.pokeBic a w) = m.poke a (Nat.ldiff (m a) w) := rfl

/-! ## Overlay lemmas -/

lemma poke_ovl (d : Device) (a v : Nat) : (d.poke a v).ovl = d.ovl := by
  unfold Device.poke
  cases d.ovl with
  | none => rfl
  | some p => obtain ⟨base, words⟩ := p; dsimp only; split <;> rfl

lemma poke_words_ovl (ws : List Nat) :
    ∀ (a : Nat) (d : Device), (poke_words d a ws).ovl = d.ovl := by
  induction ws with
  | nil => intro a d; rfl
  | cons w ws ih =>
    intro a d
    show (poke_words (d.poke a w) (a + 4) ws).ovl = d.ovl
    rw [ih, poke_ovl]

lemma poke_covered (d : Device) (base words a v : Nat)
    (hovl : d.ovl = some (base, words)) (hc : covers base words a) :
    d.poke a v = { d with ram := fun i => if i = (a - base) / 4 then v else d.ram i } := by
  unfold Device.poke
  rw [hovl]
  simp [hc]

lemma pokeTrace_cons (a w : Nat) (ws : List Nat) :
    pokeTrace a (w :: ws) = DevOp.pokeWord a w :: pokeTrace (a + 4) ws := by
  unfold pokeTrace
  simp only [List.length_cons]
  rw [List.range_succ_eq_map, List.map_cons, List.map_map]
  simp only [List.getD_cons_zero, Nat.mul_zero, Nat.add_zero]
  congr 1
  apply List.map_congr_left
  intro i _
  simp only [Function.comp_apply, List.getD_cons_succ]
  congr 1
  omega

lemma runDevTrace_pokeTrace (ws : List Nat) :
    ∀ (a : Nat) (d : Device), runDevTrace d (pokeTrace a ws) = poke_words d a ws := by
  induction ws with
  | nil => intro a d; rfl
  | cons w ws ih =>
    intro a d
    rw [pokeTrace_cons]
    show runDevTrace (d.poke a w) (pokeTrace (a + 4) ws) = poke_words d a (w :: ws)
    rw [ih]
    rfl

/-- While the overlay is mapped at `(b, n)`, writing `ws` starting at word
index `k` (address `b + 4*k`, with room, `k + |ws| ≤ n`) stores each word at
its backing-RAM index and touches nothing below index `k`. -/
lemma poke_words_ram (n : Nat) (ws : List Nat) :
    ∀ (k : Nat) (b : Nat) (d : Device), d.ovl = some (b, n) → k + ws.length ≤ n →
      (∀ i, i < ws.length →
        (poke_words d (b + 4 * k) ws).ram (k + i) = ws.getD i 0) ∧
      (∀ i, i < k → (poke_words d (b + 4 * k) ws).ram i = d.ram i) := by
  induction ws with
  | nil =>
    intro k b d _ _
    exact ⟨fun i hi => by simp at hi, fun i _ => rfl⟩
  | cons w ws ih =>
    intro k b d hovl hk
    have hk' : k + (ws.length + 1) ≤ n := by simpa using hk
    have hcov : covers b n (b + 4 * k) := by unfold covers; omega
    have hidx : (b + 4 * k - b) / 4 = k := by
      have h4 : b + 4 * k - b = 4 * k := by omega
      rw [h4, Nat.mul_div_cancel_left k (by norm_num)]
    have hpoke : d.poke (b + 4 * k) w =
        { d with ram := fun i => if i = k then w else d.ram i } := by
      rw [poke_covered d b n (b + 4 * k) w hovl hcov, hidx]
    have hstep : poke_words d (b + 4 * k) (w :: ws) =
        poke_words (d.poke (b + 4 * k) w) (b + 4 * (k + 1)) ws := by
      have haddr : b + 4 * k + 4 = b + 4 * (k + 1) := by omega
      show poke_words (d.poke (b + 4 * k) w) (b + 4 * k + 4) ws = _
      rw [haddr]
    have hd1ovl : (d.poke (b + 4 * k) w).ovl = some (b, n) := by rw [poke_ovl, hovl]
    obtain ⟨ihat, ihbelow⟩ := ih (k + 1) b (d.poke (b + 4 * k) w) hd1ovl (by omega)
    constructor
    · intro i hi
      rw [hstep]
      cases i with
      | zero =>
        simp only [Nat.add_zero, List.getD_cons_zero]
        rw [ihbelow k (by omega), hpoke]
        simp
      | succ j =>
        have hkj : k + (j + 1) = (k + 1) + j := by omega
        rw [hkj, List.getD_cons_succ]
        exact ihat j (by simpa using hi)
    · intro i hi
      rw [hstep, ihbelow i (by omega), hpoke]
      have hik : i ≠ k := by omega
      simp [hik]

lemma wrf_ram (d : Device) (address : Nat) (ws : List Nat) :
    ∀ i, i < ws.length → (wrf d address ws).ram i = ws.getD i 0 := by
  intro i hi
  unfold wrf
  show (poke_words (overlay_set d scratch_va ws.length) scratch_va ws).ram i = _
  have h0 : scratch_va = scratch_va + 4 * 0 := by omega
  rw [h0]
  have := (poke_words_ram ws.length ws 0 scratch_va
    (overlay_set d scratch_va ws.length) rfl (by omega)).1 i hi
  simpa using this

lemma wrf_peek (d : Device) (address : Nat) (ws : List Nat) :
    ∀ i, i < ws.length → (wrf d address ws).peek (address + 4 * i) = ws.getD i 0 := by
  intro i hi
  have hovl : (wrf d address ws).ovl = some (address, ws.length) := rfl
  have hcov : covers address ws.length (address + 4 * i) := by unfold covers; omega
  have hidx : (address + 4 * i - address) / 4 = i := by
    have h4 : address + 4 * i - address = 4 * i := by omega
    rw [h4, Nat.mul_div_cancel_left i (by norm_num)]
  unfold Device.peek
  rw [hovl]
  simp only [hcov, if_pos, hidx]
  exact wrf_ram d address ws i hi

/-- After `wrf`, reading `len(words)*4` bytes (i.e. `len(words)` words) at the
target address returns exactly the written words. -/
lemma wrf_read_back (d : Device) (address : Nat) (ws : List Nat) :
    read_words (wrf d address ws) address ws.length = ws := by
  apply List.ext_getElem
  · simp [read_words]
  · intro i h1 h2
    simp only [read_words, List.getElem_map, List.getElem_range]
    rw [wrf_peek d address ws i (by simpa [read_words] using h2)]
    exact List.getD_eq_getElem ws 0 h2

/-- The wrf trace, executed operation by operation, produces exactly the
`wrf` final state: map scratch, write, re-map. -/
lemma runDevTrace_wrf (d : Device) (address : Nat) (ws : List Nat) :
    runDevTrace d (wrfTrace address ws) = wrf d address ws := by
  unfold wrfTrace
  show runDevTrace (overlay_set d scratch_va ws.length)
    (pokeTrace scratch_va ws ++ [DevOp.setOverlay address ws.length]) = _
  have happ : ∀ (l1 l2 : List DevOp) (d0 : Device),
      runDevTrace d0 (l1 ++ l2) = runDevTrace (runDevTrace d0 l1) l2 := by
    intro l1
    induction l1 with
    | nil => intro l2 d0; rfl
    | cons op rest ih => intro l2 d0; exact ih l2 (op.apply d0)
  rw [happ, runDevTrace_pokeTrace]
  rfl

/-- The overlay-mapping operations in the wrf trace are exactly the scratch
map followed by the single final re-map onto the target — the re-map is one
`set` call and it is the last operation of the whole trace. -/
lemma wrfTrace_sets (address : Nat) (ws : List Nat) :
    (wrfTrace address ws).filter DevOp.isSet =
      [DevOp.setOverlay scratch_va ws.length, DevOp.setOverlay address ws.length] ∧
    (wrfTrace address ws).getLast? = some (DevOp.setOverlay address ws.length) := by
  have hpokes : (pokeTrace scratch_va ws).filter DevOp.isSet = [] := by
    rw [List.filter_eq_nil_iff]
    intro op hop
    unfold pokeTrace at hop
    obtain ⟨i, _, rfl⟩ := List.mem_map.mp hop
    simp [DevOp.isSet]
  constructor
  · unfold wrfTrace
    simp [List.filter_cons, List.filter_append, hpokes, DevOp.isSet]
  · unfold wrfTrace
    show ((DevOp.setOverlay scratch_va ws.length :: pokeTrace scratch_va ws) ++
      [DevOp.setOverlay address ws.length]).getLast? = _
    rw [List.getLast?_concat]

/-! ### fill lemmas -/

lemma fill_words_frame (n : Nat) :
    ∀ (a : Nat) (m : BMem) (w x : Nat), x < a ∨ a + 4 * n ≤ x →
      fill_words m a w n x = m x := by
  induction n with
  | zero => intro a m w x _; rfl
  | succ k ih =>
    intro a m w x hx
    show fill_words (writeWord m a w) (a + 4) w k x = m x
    rw [ih (a + 4) _ w x (by omega)]
    unfold writeWord
    have : ¬ (a ≤ x ∧ x < a + 4) := by omega
    simp [this]

lemma fill_words_at (n : Nat) :
    ∀ (a : Nat) (m : BMem) (w x : Nat), a ≤ x → x < a + 4 * n →
      fill_words m a w n x = byteOf w ((x - a) % 4) := by
  induction n with
  | zero => intro a m w x h1 h2; omega
  | succ k ih =>
    intro a m w x h1 h2
    show fill_words (writeWord m a w) (a + 4) w k x = _
    by_cases hx : x < a + 4
    · rw [fill_words_frame k (a + 4) _ w x (by omega)]
      unfold writeWord
      have hin : a ≤ x ∧ x < a + 4 := ⟨h1, hx⟩
      have hmod : (x - a) % 4 = x - a := Nat.mod_eq_of_lt (by omega)
      simp [hin, hmod]
    · rw [ih (a + 4) _ w x (by omega) (by omega)]
      congr 1
      omega

/-- On a repeated-byte pattern the bulk path and the per-word path agree
byte for byte. -/
lemma fill_bulk_eq_fill_words (m : BMem) (a w n : Nat)
    (hrep : isRepeatedByte w = true) :
    fill_bulk m a (w % 256) n = fill_words m a w n := by
  have hb : ∀ k, k < 4 → byteOf w k = w % 256 := by
    unfold isRepeatedByte at hrep
    simp only [Bool.and_eq_true, beq_iff_eq] at hrep
    intro k hk
    interval_cases k <;> simp [byteOf] <;> omega
  funext x
  unfold fill_bulk
  by_cases hx : a ≤ x ∧ x < a + 4 * n
  · rw [if_pos hx, fill_words_at n a m w x hx.1 hx.2, hb ((x - a) % 4) (by omega)]
  · rw [if_neg hx, fill_words_frame n a m w x (by omega)]

/-- Reading a word back after the per-word fill returns the pattern (for a
32-bit pattern). -/
lemma fill_words_read (m : BMem) (a w n : Nat) (hw : w < 2 ^ 32) :
    ∀ i, i < n → readWord (fill_words m a w n) (a + 4 * i) = w := by
  intro i hi
  have hk : ∀ k, k ≤ 3 →
      fill_words m a w n (a + 4 * i + k) = byteOf w k := by
    intro k hkle
    rw [fill_words_at n a m _ _ (by omega) (by omega)]
    congr 1
    omega
  unfold readWord
  have hk0 := hk 0 (by omega)
  rw [Nat.add_zero] at hk0
  rw [hk0, hk 1 (by omega), hk 2 (by omega), hk 3 (by omega)]
  unfold byteOf
  have h32 : w < 4294967296 := by simpa using hw
  simp only [pow_zero, pow_one, Nat.pow_succ]
  norm_num
  omega

lemma search_block_mem (address : Nat) (block pattern : List Nat) (x : Nat) :
    x ∈ search_block address block pattern ↔
      ∃ i, i < block.length ∧ x = address + i ∧
        (block.drop i).take pattern.length = pattern := by
  unfold search_block
  simp only [List.mem_map, List.mem_filter, List.mem_range, decide_eq_true_eq]
  constructor
  · rintro ⟨i, ⟨hi, hmatch⟩, rfl⟩
    exact ⟨i, hi, rfl, hmatch⟩
  · rintro ⟨i, hi, rfl, hmatch⟩
    exact ⟨i, ⟨hi, hmatch⟩, rfl⟩

lemma takeWhile_takeWhile_and {α : Type} (p q : α → Bool) (l : List α) :
    (l.takeWhile p).takeWhile q = l.takeWhile fun a => p a && q a := by
  induction l with
  | nil => rfl
  | cons hd tl ih =>
    by_cases hp : p hd <;> by_cases hq : q hd <;>
      simp [List.takeWhile_cons, hp, hq, ih]

/-! # Claim theorems -/

/-- C1: For every word list and flash target address, the composite
write-then-overlay operation (`wrf` / `asmf`) performs its steps in the
mandatory order — map the overlay onto the scratch address, write all the
words there, then re-map onto the target with a single `set` call (the last
operation of the trace, and the only mapping operation besides the initial
scratch map); afterwards reading `len(words)` words at the target address
returns exactly the written words.  A successful `asmf` performs exactly the
same write-then-overlay composite on its assembled words. -/
theorem wrf_write_then_overlay (d : Device) (address : Nat) (ws : List Nat) :
    read_words (wrf d address ws) address ws.length = ws ∧
    runDevTrace d (wrfTrace address ws) = wrf d address ws ∧
    (wrfTrace address ws).filter DevOp.isSet =
      [DevOp.setOverlay scratch_va ws.length, DevOp.setOverlay address ws.length] ∧
    (wrfTrace address ws).getLast? = some (DevOp.setOverlay address ws.length) ∧
    ∀ (assemble : String → Except CodeError (List Nat)) (code : String),
      assemble code = Except.ok ws →
      asmfRun assemble d address code =
        (Except.ok (wrf d address ws), wrfTrace address ws) :=
  ⟨wrf_read_back d address ws, runDevTrace_wrf d address ws,
    (wrfTrace_sets address ws).1, (wrfTrace_sets address ws).2,
    fun assemble code h => by unfold asmfRun; rw [h]⟩

/-- C1 witness: a concrete two-word patch at address 64. -/
theorem wrf_write_then_overlay_witness :
    read_words (wrf dev0 64 [7, 9]) 64 2 = [7, 9] ∧
    asmfRun (fun c => Except.ok [7, 9]) dev0 64 "mov r0, r1" =
      (Except.ok (wrf dev0 64 [7, 9]), wrfTrace 64 [7, 9]) := by
  obtain ⟨h1, _, _, _, h5⟩ := wrf_write_then_overlay dev0 64 [7, 9]
  exact ⟨h1, h5 (fun c => Except.ok [7, 9]) "mov r0, r1" rfl⟩

/-- C2 counterexample: at address 0 with the word initially 1 and mask 1,
`read_modify_write_or` then `read_modify_write_and_not` leaves 0, not the
original 1 — the round trip does not restore a word that already had bits of
the mask set. -/
theorem orr_bic_not_involution_cx :
    poke_bic (poke_orr (fun x => 1) 0 1) 0 1 0 ≠ (fun x => (1 : Nat)) 0 := by
  have hld : Nat.ldiff 1 1 = 0 := by
    apply Nat.eq_of_testBit_eq
    intro i
    simp [Nat.testBit_ldiff]
  have hval : poke_bic (poke_orr (fun x => 1) 0 1) 0 1 0 = Nat.ldiff 1 1 := by
    rw [poke_bic_poke_orr]
    simp [Mem.poke]
  rw [hval, hld]
  simp

/-- C2 (amended): `read_modify_write_or(a, m)` followed by
`read_modify_write_and_not(a, m)` sets the word at `a` to the original value
with the bits of `m` cleared, leaves every other address unchanged, and
restores the original word exactly when the original had no bits in common
with `m`. -/
theorem orr_then_bic_clears_mask (m : Mem) (a mask : Nat) :
    poke_bic (poke_orr m a mask) a mask = Mem.poke m a (Nat.ldiff (m a) mask) ∧
    (∀ x, x ≠ a → poke_bic (poke_orr m a mask) a mask x = m x) ∧
    (m a &&& mask = 0 → poke_bic (poke_orr m a mask) a mask = m) := by
  refine ⟨poke_bic_poke_orr m a mask, ?_, ?_⟩
  · intro x hx
    rw [poke_bic_poke_orr]
    simp [Mem.poke, hx]
  · intro h
    rw [poke_bic_poke_orr, ldiff_eq_self_of_land_eq_zero h]
    funext x
    by_cases hx : x = a <;> simp [Mem.poke, hx]

/-- C2 witness: word 2, mask 1 (disjoint bits): the round trip restores
memory exactly; and address 9 ≠ 5 is untouched. -/
theorem orr_then_bic_clears_mask_witness :
    poke_bic (poke_orr (fun x => 2) 5 1) 5 1 = (fun x => 2) ∧
    poke_bic (poke_orr (fun x => 2) 5 1) 5 1 9 = 2 :=
  ⟨(orr_then_bic_clears_mask (fun x => 2) 5 1).2.2 (by decide),
   (orr_then_bic_clears_mask (fun x => 2) 5 1).2.1 9 (by decide)⟩

/-- C3: `fill(a, pattern, n)` followed by `read_words(a, n)` returns `n`
copies of the pattern; the dispatched implementation always equals the
per-word fallback path, and on a repeated-byte pattern the bulk fast path
coincides with the fallback byte for byte — the path choice is not
observable in the resulting memory contents. -/
theorem fill_roundtrip_paths (m : BMem) (a w n : Nat) (hw : w < 2 ^ 32) :
    bread_words (fill m a w n) a n = List.replicate n w ∧
    fill m a w n = fill_words m a w n ∧
    (isRepeatedByte w = true → fill_bulk m a (w % 256) n = fill_words m a w n) := by
  have hpath : fill m a w n = fill_words m a w n := by
    unfold fill
    by_cases h : isRepeatedByte w
    · rw [if_pos h, fill_bulk_eq_fill_words m a w n h]
    · rw [if_neg h]
  refine ⟨?_, hpath, fun h => fill_bulk_eq_fill_words m a w n h⟩
  rw [hpath]
  apply List.ext_getElem
  · simp [bread_words]
  · intro i h1 h2
    simp only [bread_words, List.getElem_map, List.getElem_range,
      List.getElem_replicate]
    exact fill_words_read m a w n hw i (by simpa [bread_words] using h1)

/-- C3 witness: a repeated-byte pattern (bulk path) and a general pattern
(fallback path), both read back as two copies. -/
theorem fill_roundtrip_paths_witness :
    bread_words (fill (fun x => 0) 8 0x55555555 2) 8 2 =
      List.replicate 2 0x55555555 ∧
    bread_words (fill (fun x => 0) 8 0x12345678 2) 8 2 =
      List.replicate 2 0x12345678 :=
  ⟨(fill_roundtrip_paths (fun x => 0) 8 0x55555555 2 (by decide)).1,
   (fill_roundtrip_paths (fun x => 0) 8 0x12345678 2 (by decide)).1⟩

/-- C4: the `fc` definition key in line mode is the whitespace-normalized
definition text truncated at the first brace-or-equals character; in cell
mode it is the whitespace-normalized header line; and storing a second
definition whose text normalizes to the same key replaces the earlier one
(later define wins). -/
theorem fc_key_and_replacement (D : Includes) (l1 l2 cell1 cell2 : List Char)
    (h1 : pyWords l1 ≠ []) (h2 : pyWords l2 ≠ [])
    (hkey : lineKey l1 = lineKey l2) (hc : cell2 ≠ []) :
    (∀ line : List Char, lineKey line =
      (normalizeWs line).takeWhile fun c => !(c == '\x7b') && !(c == '=')) ∧
    fc (fc D l1 []) l2 [] (lineKey l1) = some (l2 ++ [';']) ∧
    fc (fc D l1 cell1) l1 cell2 (cellKey l1) = some (fcBody l1 cell2) ∧
    cellKey l1 = normalizeWs l1 := by
  have e1 : ∀ (E : Includes) (l : List Char), pyWords l ≠ [] →
      fc E l [] = dictSet E (lineKey l) (l ++ [';']) := by
    intro E l hl
    unfold fc
    rw [if_neg (by simp), if_neg hl]
  refine ⟨?_, ?_, ?_, rfl⟩
  · intro line
    unfold lineKey
    exact takeWhile_takeWhile_and _ _ _
  · rw [e1 _ l1 h1, e1 _ l2 h2]
    unfold dictSet
    rw [if_pos hkey]
  · have e2 : fc (fc D l1 cell1) l1 cell2 =
        dictSet (fc D l1 cell1) (cellKey l1) (fcBody l1 cell2) := by
      unfold fc
      rw [if_pos hc]
    rw [e2]
    unfold dictSet
    rw [if_pos rfl]

/-- C4 witness: two line-mode definitions whose text normalizes to the same
key: the later one wins. -/
theorem fc_key_and_replacement_witness :
    fc (fc emptyIncludes ("u32 x = 1".toList) []) ("u32 x  = 2".toList) []
      (lineKey ("u32 x = 1".toList)) = some ("u32 x  = 2".toList ++ [';']) :=
  (fc_key_and_replacement emptyIncludes ("u32 x = 1".toList)
    ("u32 x  = 2".toList) [] ['y']
    (by decide) (by decide) (by decide) (by decide)).2.1

/-- C5: the block-read CDB is the fixed big-endian layout — opcode byte
`0xA8`, one reserved zero byte, the 4-byte big-endian LBA, the 4-byte
big-endian transfer length (10 CDB bytes handed to the 12-byte-CDB channel),
and the requested data-in length is `n * 2048` bytes (2 KB blocks).  The
byte fields decode back to the 32-bit values. -/
theorem sc_read_cdb_layout (lba len : Nat) :
    sc_read_cdb lba len = 0xA8 :: 0 :: (be32 lba ++ be32 len) ∧
    (sc_read_cdb lba len).length = 10 ∧
    (sc_read_cdb lba len).getD 2 0 * 16777216 + (sc_read_cdb lba len).getD 3 0 * 65536 +
      (sc_read_cdb lba len).getD 4 0 * 256 + (sc_read_cdb lba len).getD 5 0 =
        lba % 4294967296 ∧
    (sc_read_cdb lba len).getD 6 0 * 16777216 + (sc_read_cdb lba len).getD 7 0 * 65536 +
      (sc_read_cdb lba len).getD 8 0 * 256 + (sc_read_cdb lba len).getD 9 0 =
        len % 4294967296 ∧
    sc_read_datalen len = len * 2048 := by
  have hcdb : sc_read_cdb lba len =
      [0xA8, 0, lba / 2 ^ 24 % 256, lba / 2 ^ 16 % 256, lba / 2 ^ 8 % 256, lba % 256,
        len / 2 ^ 24 % 256, len / 2 ^ 16 % 256, len / 2 ^ 8 % 256, len % 256] := by
    simp [sc_read_cdb, be32]
  refine ⟨by simp [sc_read_cdb, be32], by rw [hcdb]; rfl, ?_, ?_, rfl⟩
  · rw [hcdb]
    simp only [List.getD]
    norm_num
    omega
  · rw [hcdb]
    simp only [List.getD]
    norm_num
    omega

/-- C6: `set_overlay(b, n)` immediately followed by `get_overlay()` returns
`(b, n)`; a second `set_overlay` fully replaces the first mapping with no
merging; and when no overlay is installed `get_overlay()` returns `(0, 0)`. -/
theorem overlay_set_get_spec (d : Device) (b n b' n' : Nat) (hn : 0 < n) :
    overlay_get (overlay_set d b n) = (b, n) ∧
    overlay_set (overlay_set d b n) b' n' = overlay_set d b' n' ∧
    ∀ d0 : Device, d0.ovl = none → overlay_get d0 = (0, 0) := by
  refine ⟨rfl, rfl, ?_⟩
  intro d0 h0
  unfold overlay_get
  rw [h0]

/-- C6 witness: concrete mappings on the blank device. -/
theorem overlay_set_get_spec_witness :
    overlay_get (overlay_set dev0 0x1000 4) = (0x1000, 4) ∧
    overlay_set (overlay_set dev0 0x1000 4) 0x2000 2 = overlay_set dev0 0x2000 2 ∧
    overlay_get dev0 = (0, 0) := by
  obtain ⟨ha, hb, hc⟩ := overlay_set_get_spec dev0 0x1000 4 0x2000 2 (by decide)
  exact ⟨ha, hb, hc dev0 rfl⟩

/-- C7: after every successful `%ea` evaluation the session's `r0`/`r1`
equal the pair returned by the evaluation, and the next `%ea` call receives
the persisted `r0` as its input register. -/
theorem ea_persists_registers
    (evalasm : String → Nat → Except CodeError (Nat × Nat))
    (s : Session) (line : String) (a b : Nat)
    (h : evalasm line (eaInput s) = Except.ok (a, b)) :
    (ea evalasm s line).r0 = some a ∧
    (ea evalasm s line).r1 = some b ∧
    eaInput (ea evalasm s line) = a := by
  unfold ea
  rw [h]
  exact ⟨rfl, rfl, rfl⟩

/-- C7 witness: an evaluation returning `(r0+1, r0*2)` from the fresh
session (input 0) persists `r0 = 1`, `r1 = 0`, and the next call's input
is 1. -/
theorem ea_persists_registers_witness :
    (ea (fun l r => Except.ok (r + 1, r * 2)) Session.initial "x").r0 = some 1 ∧
    (ea (fun l r => Except.ok (r + 1, r * 2)) Session.initial "x").r1 = some 0 ∧
    eaInput (ea (fun l r => Except.ok (r + 1, r * 2)) Session.initial "x") = 1 :=
  ea_persists_registers (fun l r => Except.ok (r + 1, r * 2))
    Session.initial "x" 1 0 rfl

/-- C8: when compilation fails, both the flash-patch assembly (`asmf`) and
hook installation abort before any device-level operation is issued (empty
trace: no overlay, scratch-RAM or flash mutation), and the resulting
`CodeError` is surfaced to the caller itself, its message untouched. -/
theorem compile_failure_aborts
    (assemble compile : String → Except CodeError (List Nat))
    (redirect : Nat → List Nat) (d : Device)
    (address hook_address handler_address : Nat) (code source : String)
    (e1 e2 : CodeError)
    (ha : assemble code = Except.error e1)
    (hc : compile source = Except.error e2) :
    asmfRun assemble d address code = (Except.error e1, []) ∧
    overlay_hookRun compile redirect d hook_address handler_address source =
      (Except.error e2, []) := by
  constructor
  · unfold asmfRun
    rw [ha]
  · unfold overlay_hookRun
    rw [hc]

/-- C8 witness: concrete failing assembler and compiler abort with no
operations and the original messages. -/
theorem compile_failure_aborts_witness :
    asmfRun (fun c => Except.error ⟨"undefined symbol"⟩) dev0 64 "bl foo" =
      (Except.error ⟨"undefined symbol"⟩, []) ∧
    overlay_hookRun (fun c => Except.error ⟨"syntax error"⟩) (fun h => [1, 2])
      dev0 0x8564c 0x1e48100 "bad(" = (Except.error ⟨"syntax error"⟩, []) :=
  compile_failure_aborts (fun c => Except.error ⟨"undefined symbol"⟩)
    (fun c => Except.error ⟨"syntax error"⟩) (fun h => [1, 2]) dev0
    64 0x8564c 0x1e48100 "bl foo" "bad(" ⟨"undefined symbol"⟩ ⟨"syntax error"⟩
    rfl rfl

/-- C9: `find` reports exactly the offsets in `[address, address+size)` at
which the pattern matches byte for byte within the fetched block, at any
alignment, including overlapping occurrences; searching for `AA AA` in
content `AA AA AA` at address 0x1000 over size 3 yields matches at 0x1000
and 0x1001. -/
theorem find_overlapping_matches (address : Nat) (block pattern : List Nat)
    (hp : pattern ≠ []) :
    (∀ x, x ∈ search_block address block pattern ↔
      ∃ i, i < block.length ∧ x = address + i ∧
        (block.drop i).take pattern.length = pattern) ∧
    search_block 0x1000 [0xAA, 0xAA, 0xAA] [0xAA, 0xAA] = [0x1000, 0x1001] :=
  ⟨fun x => search_block_mem address block pattern x, by decide⟩

/-- C9 witness: the overlapping match at 0x1001 is characterized by the
membership property. -/
theorem find_overlapping_matches_witness :
    0x1001 ∈ search_block 0x1000 [0xAA, 0xAA, 0xAA] [0xAA, 0xAA] ↔
      ∃ i, i < ([0xAA, 0xAA, 0xAA] : List Nat).length ∧ (0x1001 : Nat) = 0x1000 + i ∧
        (([0xAA, 0xAA, 0xAA] : List Nat).drop i).take
          ([0xAA, 0xAA] : List Nat).length = [0xAA, 0xAA] :=
  (find_overlapping_matches 0x1000 [0xAA, 0xAA, 0xAA] [0xAA, 0xAA]
    (by decide)).1 0x1001

/-- C10: `orr` and `bic` with a word list (line arguments first, cell words
appended) apply the read-modify-write per word at `address + 4*i` for word
`i`, in ascending index order, and modify no other address. -/
theorem orr_bic_per_word (m : Mem) (address : Nat) (lineWords cellWords : List Nat) :
    (∀ i, i < (magicWords lineWords cellWords).length →
      orrMagic m address (magicWords lineWords cellWords) (address + i * 4) =
        m (address + i * 4) ||| (magicWords lineWords cellWords).getD i 0) ∧
    (∀ x, (∀ i, i < (magicWords lineWords cellWords).length → x ≠ address + i * 4) →
      orrMagic m address (magicWords lineWords cellWords) x = m x) ∧
    (∀ i, i < (magicWords lineWords cellWords).length →
      bicMagic m address (magicWords lineWords cellWords) (address + i * 4) =
        Nat.ldiff (m (address + i * 4)) ((magicWords lineWords cellWords).getD i 0)) ∧
    (∀ x, (∀ i, i < (magicWords lineWords cellWords).length → x ≠ address + i * 4) →
      bicMagic m address (magicWords lineWords cellWords) x = m x) := by
  refine ⟨?_, ?_, ?_, ?_⟩
  · intro i hi
    exact runTrace_rmw_at (fun v w => v ||| w) MemOp.pokeOrr memOp_apply_orr
      (magicWords lineWords cellWords) address m i hi
  · intro x hx
    exact runTrace_rmw_frame (fun v w => v ||| w) MemOp.pokeOrr memOp_apply_orr
      (magicWords lineWords cellWords) address m x hx
  · intro i hi
    exact runTrace_rmw_at (fun v w => Nat.ldiff v w) MemOp.pokeBic memOp_apply_bic
      (magicWords lineWords cellWords) address m i hi
  · intro x hx
    exact runTrace_rmw_frame (fun v w => Nat.ldiff v w) MemOp.pokeBic memOp_apply_bic
      (magicWords lineWords cellWords) address m x hx

/-- C10 witness: with line word 3 and cell word 8 at address 100, the OR is
applied at 100 and 104 in index order and addresses 97 and 200 are
untouched. -/
theorem orr_bic_per_word_witness :
    orrMagic (fun x => 5) 100 (magicWords [3] [8]) 104 = 13 ∧
    orrMagic (fun x => 5) 100 (magicWords [3] [8]) 97 = 5 ∧
    bicMagic (fun x => 5) 100 (magicWords [3] [0]) 104 = 5 ∧
    bicMagic (fun x => 5) 100 (magicWords [3] [8]) 200 = 5 := by
  obtain ⟨ho, hof, _, hbf⟩ := orr_bic_per_word (fun x => 5) 100 [3] [8]
  obtain ⟨_, _, hb0, _⟩ := orr_bic_per_word (fun x => 5) 100 [3] [0]
  refine ⟨?_, ?_, ?_, ?_⟩
  · have h := ho 1 (by decide)
    simpa [magicWords] using h
  · exact hof 97 (by intro i hi; omega)
  · have h := hb0 1 (by decide)
    have hld : Nat.ldiff 5 0 = 5 := by
      apply Nat.eq_of_testBit_eq
      intro i
      simp [Nat.testBit_ldiff]
    simpa [magicWords, hld] using h
  · exact hbf 200 (by intro i hi; simp [magicWords] at hi; omega)

end Coastermelt
